import Mathlib

/-!
Verification of the `which` package (`which.go`): a tool that recovers
the import path of the main package compiled into a Go executable.

The embedding below is a shallow model of the path-resolution logic of
`which.go`, translated function by function from the source:
`pathtomodule`, `genpkgpath`, `guesspkg`, `isfiltered`, the candidate
directory collection loop of `Exec.Import`, and `Exec.Import` itself.

Modelling conventions:
* Strings are `List Char` (`Str`); `os.PathSeparator` is fixed to the Unix
  value `'/'` (so `filepath.FromSlash`/`ToSlash` are the identity and are
  omitted).
* The Go standard library path helpers used by the source
  (`filepath.Clean`, `filepath.Join`, `filepath.Dir`, `filepath.Base`,
  `strings.Contains`, `strings.LastIndex`, `strings.LastIndexByte`,
  `strings.IndexRune`, `strings.TrimSuffix`, `strings.HasPrefix`,
  `strings.HasSuffix`) are modelled by executable Lean functions with the
  documented Unix semantics.
* `filepath.EvalSymlinks` is a filesystem collaborator; it is modelled as
  an explicit parameter `res : Str → Option Str` (`none` models the error
  case, in which the source keeps the original path).
* The global `filtered` set and the search-root list (`runtime.GOROOT()`
  plus `getgopath()`) are environment-dependent; they are passed as
  explicit parameters.
* The symbol table (`gosym.Table`) is an external decoder; `Exec.Import`
  only queries whether `main.main` exists, the file `PCToLine` reports for
  its entry (when an enclosing function is found), and the `(file, funcs)`
  pairs of the table, so the table is modelled by exactly those fields.
* Go maps (the `filtered` set, the candidate directory set `dirs`) are
  modelled as lists; insertion into `dirs` is deduplicating, and
  permutation-invariance of everything that consumes `dirs` is proved
  rather than assumed.
-/

namespace Which

/-- Strings, modelled as lists of characters. -/
abbrev Str := List Char

/-- `os.PathSeparator` on Unix. -/
def sep : Char := '/'

/-- `"/src/"`, the package `src` marker (`var src = filepath.FromSlash("/src/")`). -/
def srcMark : Str := r"/src/".toList

/-- `"/pkg/mod/"`, the module cache marker (`var mod = filepath.FromSlash("/pkg/mod/")`). -/
def modMark : Str := r"/pkg/mod/".toList

/-- The string `"cmd"` followed by the path separator, used by `guesspkg`. -/
def cmdMark : Str := r"cmd/".toList

/-- The function name `"main.main"`. -/
def mainName : Str := r"main.main".toList

/-- The `".exe"` suffix trimmed on Windows. -/
def exeMark : Str := r".exe".toList

/-- `strings.Contains(hay, sub)`: `sub` occurs as a contiguous substring. -/
def hasSub (hay sub : Str) : Bool :=
  sub.isPrefixOf hay ||
    match hay with
    | [] => false
    | _ :: rest => hasSub rest sub

/-- `strings.LastIndexByte(s, c)`: index of the last occurrence of `c`,
`none` for Go's `-1`. -/
def lastIdxChar (s : Str) (c : Char) : Option Nat :=
  match s with
  | [] => none
  | a :: rest =>
    match lastIdxChar rest c with
    | some i => some (i + 1)
    | none => if a = c then some 0 else none

/-- `strings.LastIndex(hay, sub)`: start index of the last occurrence of the
substring `sub`, `none` for Go's `-1`. -/
def lastIdxSub (hay sub : Str) : Option Nat :=
  match hay with
  | [] => if sub.isEmpty then some 0 else none
  | _ :: rest =>
    match lastIdxSub rest sub with
    | some i => some (i + 1)
    | none => if sub.isPrefixOf hay then some 0 else none

/-- `strings.IndexRune(s, c)` (for ASCII `c`): index of the first occurrence
of `c`, `none` for Go's `-1`. -/
def idxChar (s : Str) (c : Char) : Option Nat :=
  match s with
  | [] => none
  | a :: rest =>
    if a = c then some 0
    else
      match idxChar rest c with
      | some i => some (i + 1)
      | none => none

/-- `strings.TrimSuffix(s, suf)`. -/
def trimSuf (s suf : Str) : Str :=
  if suf.isSuffixOf s then s.take (s.length - suf.length) else s

/-- Split a string on the path separator; `splitSep s` always returns a
non-empty list of separator-free pieces whose `'/'`-interleaving is `s`. -/
def splitSep : Str → List Str
  | [] => [[]]
  | c :: rest =>
    match splitSep rest with
    | [] => [[c]]
    | p :: ps => if c = sep then [] :: p :: ps else (c :: p) :: ps

/-- The element stack of Go's `filepath.Clean` (Unix): process path
elements left to right, skipping empty and `"."` elements, resolving
`".."` against the stack.  Mirrors the `lazybuf` loop of `path/filepath`:
when rooted, `".."` pops a non-empty stack and is dropped otherwise; when
not rooted, `".."` pops unless the stack is empty or topped by `".."`, in
which case it is pushed. -/
def cleanStack (rooted : Bool) : List Str → List Str → List Str
  | [], stack => stack
  | piece :: rest, stack =>
    if piece = [] ∨ piece = ['.'] then cleanStack rooted rest stack
    else if piece = ['.', '.'] then
      match stack with
      | top :: below =>
        if rooted ∨ top ≠ ['.', '.'] then cleanStack rooted rest below
        else cleanStack rooted rest (piece :: stack)
      | [] =>
        if rooted then cleanStack rooted rest []
        else cleanStack rooted rest [piece]
    else cleanStack rooted rest (piece :: stack)

/-- Interleave path elements with the separator (`strings.Join(elems, "/")`). -/
def interSep : List Str → Str
  | [] => []
  | [s] => s
  | s :: rest => s ++ sep :: interSep rest

/-- A path is rooted when it starts with the separator. -/
def rootedB (path : Str) : Bool := decide (path.head? = some sep)

/-- The cleaned path elements of a path, in order. -/
def cleanElems (path : Str) : List Str :=
  (cleanStack (rootedB path) (splitSep path) []).reverse

/-- Go's `filepath.Clean` on Unix. -/
def goClean (path : Str) : Str :=
  if path = [] then ['.']
  else if rootedB path then sep :: interSep (cleanElems path)
  else if cleanElems path = [] then ['.']
  else interSep (cleanElems path)

/-- Go's `filepath.Join` on Unix: join the non-empty elements with the
separator and clean the result; all-empty input yields the empty string. -/
def goJoin (elems : List Str) : Str :=
  let ne := elems.filter (fun e => !e.isEmpty)
  if ne.isEmpty then [] else goClean (interSep ne)

/-- Go's `filepath.Dir` on Unix: everything up to and including the last
separator, cleaned; `"."` when there is no separator. -/
def goDir (path : Str) : Str :=
  match lastIdxChar path sep with
  | none => goClean []
  | some i => goClean (path.take (i + 1))

/-- Go's `filepath.Base` on Unix. -/
def goBase (path : Str) : Str :=
  if path = [] then ['.']
  else
    let p := (path.reverse.dropWhile (fun c => c = sep)).reverse
    match lastIdxChar p sep with
    | some i =>
      let b := p.drop (i + 1)
      if b = [] then [sep] else b
    | none => if p = [] then [sep] else p

/-- The error values of `which.go` that the resolver can produce:
`ErrNotGoExec` and `ErrGuessFail`. -/
inductive GoErr where
  | notGoExec
  | guessFail
deriving DecidableEq

/-- The eight pre-declared `PlatformType` constants of `which.go`
(`PlatformDarwin386` … `PlatformWindowsAMD64`).  The source compares
platform values by pointer identity against these distinct package-level
variables, which the constructor equality of this enumeration mirrors. -/
inductive PlatformId where
  | darwin386
  | darwinAMD64
  | freebsd386
  | freebsdAMD64
  | linux386
  | linuxAMD64
  | windows386
  | windowsAMD64
deriving DecidableEq

/-- `isfiltered(file)`: a path is discarded if it contains any of the
filtered strings.  The global `filtered` map (a set of noise fragments,
including the `$GOROOT` values added by `init`) is passed explicitly. -/
def isfiltered (filtered : List Str) (file : Str) : Bool :=
  filtered.any (fun f => hasSub file f)

/-- The static entries of the `filtered` map declared in `which.go`
(the environment-dependent `$GOROOT` entries added by `init` are extra
elements of the list passed to `isfiltered`). -/
def filteredStatic : List Str :=
  [r"/tmp/makerelease".toList, r"<autogenerated>".toList,
   r"c:/go/src".toList, r"/usr/local/go/src".toList]

/-- `pathtomodule(dir)`: transform a directory remainder from underneath
`$GOPATH/pkg/mod/` into a package name carrying the module version, by
moving the `@version` path element to the end.  Straight translation of
the source: locate the last `'@'` (return `dir` unchanged if absent),
locate the next separator inside the `@...` tail (return `dir` unchanged
if absent), and rebuild as `Join(dir[:ati], versuf[tdir:]) + versuf[:tdir]`. -/
def pathtomodule (dir : Str) : Str :=
  match lastIdxChar dir '@' with
  | none => dir
  | some ati =>
    let versuf := dir.drop ati
    match idxChar versuf sep with
    | none => dir
    | some tdir => goJoin [dir.take ati, versuf.drop tdir] ++ versuf.take tdir

/-- The inner `for dir := range dirs` loop of `guesspkg` for one search
string `s`, carrying the `pkg`/`unique` state.  The result's third
component records whether the loop returned early from inside the
function (the `if unique { unique = false; return }` branch). -/
def guessinner (s : Str) : List Str → Str → Bool → Str × Bool × Bool
  | [], pkg, unique => (pkg, unique, false)
  | dir :: rest, pkg, unique =>
    if hasSub dir s then
      match lastIdxSub dir srcMark with
      | some i =>
        let pkg' := dir.drop (i + srcMark.length)
        if unique then (pkg', false, true)
        else guessinner s rest pkg' true
      | none => guessinner s rest pkg unique
    else guessinner s rest pkg unique

/-- The outer `for _, s := range []string{...}` loop of `guesspkg`:
run the inner loop for each search string, stopping on an early return or
on `unique`. -/
def guessouter : List Str → List Str → Str → Bool → Str × Bool
  | [], _, pkg, unique => (pkg, unique)
  | s :: ss, dirs, pkg, unique =>
    match guessinner s dirs pkg unique with
    | (p, u, true) => (p, u)
    | (p, true, false) => (p, true)
    | (p, false, false) => guessouter ss dirs p false

/-- `guesspkg(name, dirs)`: look for a unique directory that contains the
search string (`"cmd/" + name` first, bare `name` second) and a `"/src/"`
marker; returns the path remainder after the last `"/src/"` and the
uniqueness flag.  (`filepath.ToSlash` in the source's deferred function is
the identity on Unix.)  The candidate directory set is passed as a list;
the source iterates a map. -/
def guesspkg (name : Str) (dirs : List Str) : Str × Bool :=
  guessouter [cmdMark ++ name, name] dirs [] false

/-- Best-effort `filepath.EvalSymlinks`: the collaborator `res` returns
`some` canonical path or `none` on error, in which case the source keeps
the path as given. -/
def resolveP (res : Str → Option Str) (p : Str) : Str :=
  match res p with
  | some q => q
  | none => p

/-- `<root>/`: the `pth` string of one root in `genpkgpath`'s loop, the
descendant test prefix. -/
def pthOf (root : Str) : Str := root ++ [sep]

/-- `<root>/src/`: the `spth` string of one root in `genpkgpath`'s loop,
the direct-build prefix (`pth + "src" + separator`). -/
def spthOf (root : Str) : Str := pthOf root ++ r"src".toList ++ [sep]

/-- `Join(<root>/, "pkg", "mod")/`: the `mpth` string of one root in
`genpkgpath`'s loop, the module-cache prefix. -/
def mpthOf (root : Str) : Str :=
  goJoin [pthOf root, r"pkg".toList, r"mod".toList] ++ [sep]

/-- The `for _, path := range checkpaths` loop of `genpkgpath` over the
(already symlink-resolved) directory `dir`: each root is symlink-resolved,
and the first root of which `dir` is a descendant via `<root>/src/` or via
`Join(<root>/, "pkg", "mod")/` produces the result. -/
def genloop (res : Str → Option Str) (dir : Str) : List Str → Option Str
  | [] => none
  | path :: rest =>
    let rpath := resolveP res path
    if (pthOf rpath).isPrefixOf dir then
      if (spthOf rpath).isPrefixOf dir then some (dir.drop (spthOf rpath).length)
      else if (mpthOf rpath).isPrefixOf dir then
        some (pathtomodule (dir.drop (mpthOf rpath).length))
      else genloop res dir rest
    else genloop res dir rest

/-- `genpkgpath(name, dir)`: generate the package path from a raw
directory.  `checkpaths` stands for `runtime.GOROOT()` followed by
`getgopath()`, and `res` for `filepath.EvalSymlinks`; both are
environment/filesystem collaborators passed explicitly.  After the root
loop fails, fall back to `guesspkg` on the single directory, then to the
last `"/pkg/mod/"` marker in the (symlink-resolved) directory, then fail
with `ErrGuessFail`. -/
def genpkgpath (res : Str → Option Str) (name dir : Str)
    (checkpaths : List Str) : Except GoErr Str :=
  let rdir := resolveP res dir
  match genloop res rdir checkpaths with
  | some r => Except.ok r
  | none =>
    match guesspkg name [rdir] with
    | (pkg, true) => Except.ok pkg
    | (_, false) =>
      match lastIdxSub rdir modMark with
      | some i => Except.ok (pathtomodule (rdir.drop (i + modMark.length)))
      | none => Except.error GoErr.guessFail

/-- The symbol-table queries `Exec.Import` performs on `gosym.Table`:
whether `LookupFunc("main.main")` finds a function; the file reported by
`PCToLine` at its entry when the lookup and the enclosing-function check
both succeed (`none` models `fn == nil`); and the `(file, function names)`
pairs of the `Files` map. -/
structure SymTable where
  hasMain : Bool
  pcFile : Option Str
  files : List (Str × List Str)

/-- An `Exec`: path, platform, and symbol table. -/
structure ExecM where
  path : Str
  typ : PlatformId
  table : SymTable

/-- Insert into the candidate directory set (a Go map keyed by the
directory): a no-op when already present. -/
def insertDir (d : Str) (acc : List Str) : List Str :=
  if d ∈ acc then acc else d :: acc

/-- The fallback collection loop of `Exec.Import`: over every
`(file, funcs)` pair of the table, add `Dir(file)` for each function named
`"main.main"` in an unfiltered file. -/
def builddirs (filtered : List Str) (files : List (Str × List Str)) : List Str :=
  files.foldl
    (fun acc p =>
      p.2.foldl
        (fun acc2 fn =>
          if fn = mainName ∧ isfiltered filtered p.1 = false then insertDir (goDir p.1) acc2
          else acc2)
        acc)
    []

/-- The tail of `Exec.Import` after the fallback scan: accept the guess
only when it is unique and non-empty. -/
def fallbackResult (name : Str) (dirs : List Str) : Except GoErr Str :=
  match guesspkg name dirs with
  | (pkg, unique) =>
    if unique = true ∧ pkg ≠ [] then Except.ok pkg else Except.error GoErr.guessFail

/-- The executable name used as the disambiguation key by `Exec.Import`:
the base name of the path, with `".exe"` trimmed exactly when the platform
is `PlatformWindows386` or `PlatformWindowsAMD64`. -/
def execName (path : Str) (typ : PlatformId) : Str :=
  let name := goBase path
  if typ = PlatformId.windows386 ∨ typ = PlatformId.windowsAMD64 then trimSuf name exeMark
  else name

/-- `Exec.Import`: resolve the import path of the main package.  Fails
immediately with `ErrGuessFail` when `main.main` is absent; uses
`genpkgpath` on the directory of `main.main`'s file when `PCToLine`
reports an enclosing function; otherwise falls back to scanning the
`Files` map and disambiguating with `guesspkg`. -/
def importEx (res : Str → Option Str) (ex : ExecM) (checkpaths : List Str)
    (filtered : List Str) : Except GoErr Str :=
  let name := execName ex.path ex.typ
  if ex.table.hasMain = false then Except.error GoErr.guessFail
  else
    match ex.table.pcFile with
    | some file => genpkgpath res name (goDir file) checkpaths
    | none => fallbackResult name (builddirs filtered ex.table.files)

-- Sanity checks of the stdlib models (Go documented behaviour).
example : goClean (r"/a/../b".toList) = (r"/b".toList) := by decide
example : goClean (r"a//b/./c".toList) = (r"a/b/c".toList) := by decide
example : goClean (r"/..".toList) = (r"/".toList) := by decide
example : goClean (r"../../a".toList) = (r"../../a".toList) := by decide
example : goClean [] = ['.'] := by decide
example : goJoin [r"/a/".toList, r"pkg".toList, r"mod".toList] = (r"/a/pkg/mod".toList) := by decide
example : goDir (r"/root/src/a/main.go".toList) = (r"/root/src/a".toList) := by decide
example : goDir (r"main.go".toList) = ['.'] := by decide
example : goBase (r"/x/prog".toList) = (r"prog".toList) := by decide
example : goBase (r"///".toList) = [sep] := by decide
example : hasSub (r"abcd".toList) (r"bc".toList) = true := by decide
example : lastIdxSub (r"/a/src/b/src/c".toList) srcMark = some 8 := by decide
example : lastIdxChar (r"a@b@c".toList) '@' = some 3 := by decide
example : idxChar (r"@v1/x".toList) sep = some 3 := by decide
example : trimSuf (r"prog.exe".toList) exeMark = (r"prog".toList) := by decide

-- Sanity checks of the program model on the spec's scenarios.
def idRes : Str → Option Str := fun _ => none

example : pathtomodule (r"fred@v1.2.3/cmd/program".toList) = (r"fred/cmd/program@v1.2.3".toList) := by decide
example : pathtomodule (r"example.com/foo@v1.0.0".toList) = (r"example.com/foo@v1.0.0".toList) := by decide
example : genpkgpath idRes (r"foo".toList) (r"/root/src/example.com/foo".toList) [r"/root".toList]
    = Except.ok (r"example.com/foo".toList) := by rfl
example : genpkgpath idRes (r"foo".toList) (r"/root/pkg/mod/example.com/foo@v1.0.0".toList) [r"/root".toList]
    = Except.ok (r"example.com/foo@v1.0.0".toList) := by rfl
example : genpkgpath idRes (r"bar".toList) (r"/root/pkg/mod/example.com/foo@v1.0.0/cmd/bar".toList) [r"/root".toList]
    = Except.ok (r"example.com/foo/cmd/bar@v1.0.0".toList) := by rfl
example : genpkgpath idRes (r"foo".toList) (r"/other/pkg/mod/example.com/foo@v2.0.0".toList) [r"/cfgroot".toList]
    = Except.ok (r"example.com/foo@v2.0.0".toList) := by rfl
example : guesspkg (r"prog".toList) [r"/h/src/cmd/prog".toList] = (r"cmd/prog".toList, true) := by decide
example : guesspkg (r"prog".toList) [r"/h/src/cmd/prog".toList, r"/g/src/cmd/prog".toList]
    = ((guesspkg (r"prog".toList) [r"/h/src/cmd/prog".toList, r"/g/src/cmd/prog".toList]).1, false) := by decide

/-! ## Helper lemmas -/

theorem lastIdxChar_eq_none {s : Str} {c : Char} (h : c ∉ s) : lastIdxChar s c = none := by
  induction s with
  | nil => rfl
  | cons a rest ih =>
    simp only [List.mem_cons, not_or] at h
    have hne : ¬a = c := fun hc => h.1 hc.symm
    simp [lastIdxChar, ih h.2, hne]

/-- A directory can contribute a package guess in `guesspkg` exactly when
it contains the search string and the `"/src/"` marker. -/
def gmatch (s dir : Str) : Bool :=
  hasSub dir s && (lastIdxSub dir srcMark).isSome

/-- The package remainder a matching directory contributes in `guesspkg`:
everything after the last `"/src/"`. -/
def srcRem (dir : Str) : Str :=
  match lastIdxSub dir srcMark with
  | some i => dir.drop (i + srcMark.length)
  | none => []

theorem guessinner_true (s : Str) (dirs : List Str) (pkg : Str) :
    guessinner s dirs pkg true =
      match dirs.filter (gmatch s) with
      | [] => (pkg, true, false)
      | d :: _ => (srcRem d, false, true) := by
  induction dirs generalizing pkg with
  | nil => rfl
  | cons dir rest ih =>
    by_cases hm : hasSub dir s
    · rcases hl : lastIdxSub dir srcMark with _ | i
      · have hg : gmatch s dir = false := by simp [gmatch, hm, hl]
        simp [guessinner, hm, hl, List.filter_cons, hg, ih]
      · have hg : gmatch s dir = true := by simp [gmatch, hm, hl]
        have hr : srcRem dir = dir.drop (i + srcMark.length) := by simp [srcRem, hl]
        simp [guessinner, hm, hl, List.filter_cons, hg, hr]
    · have hg : gmatch s dir = false := by simp [gmatch, hm]
      simp [guessinner, hm, List.filter_cons, hg, ih]

theorem guessinner_false (s : Str) (dirs : List Str) (pkg : Str) :
    guessinner s dirs pkg false =
      match dirs.filter (gmatch s) with
      | [] => (pkg, false, false)
      | [d] => (srcRem d, true, false)
      | _ :: d2 :: _ => (srcRem d2, false, true) := by
  induction dirs generalizing pkg with
  | nil => rfl
  | cons dir rest ih =>
    by_cases hm : hasSub dir s
    · rcases hl : lastIdxSub dir srcMark with _ | i
      · have hg : gmatch s dir = false := by simp [gmatch, hm, hl]
        simp [guessinner, hm, hl, List.filter_cons, hg, ih]
      · have hg : gmatch s dir = true := by simp [gmatch, hm, hl]
        have hr : srcRem dir = dir.drop (i + srcMark.length) := by simp [srcRem, hl]
        rw [guessinner]
        simp only [hm, if_true, hl]
        rw [guessinner_true, List.filter_cons, hg]
        rcases hrest : rest.filter (gmatch s) with _ | ⟨d2, t⟩ <;> simp [hr]
    · have hg : gmatch s dir = false := by simp [gmatch, hm]
      simp [guessinner, hm, List.filter_cons, hg, ih]

/-- Full input/output characterisation of `guesspkg` in terms of the
directories that match each search string. -/
theorem guesspkg_char (name : Str) (dirs : List Str) :
    guesspkg name dirs =
      match dirs.filter (gmatch (cmdMark ++ name)) with
      | [] =>
        (match dirs.filter (gmatch name) with
         | [] => ([], false)
         | [d] => (srcRem d, true)
         | _ :: d2 :: _ => (srcRem d2, false))
      | [d] => (srcRem d, true)
      | _ :: d2 :: _ => (srcRem d2, false) := by
  rw [guesspkg, guessouter, guessinner_false]
  rcases h1 : dirs.filter (gmatch (cmdMark ++ name)) with _ | ⟨d, _ | ⟨d2, t⟩⟩
  · simp only []
    rw [guessouter, guessinner_false]
    rcases h2 : dirs.filter (gmatch name) with _ | ⟨e, _ | ⟨e2, u⟩⟩ <;> simp [guessouter]
  · simp
  · simp

/-! ## Claims -/

/-- C1: Module-path reconstruction: `pathtomodule` maps
`fred@v1.2.3/cmd/program` to `fred/cmd/program@v1.2.3` (the version suffix
between the last `@` and the next path separator moves to the end of the
path), and leaves every input containing no `@` character unchanged. -/
theorem pathtomodule_claim :
    pathtomodule (r"fred@v1.2.3/cmd/program".toList) = (r"fred/cmd/program@v1.2.3".toList) ∧
    ∀ dir : Str, '@' ∉ dir → pathtomodule dir = dir := by
  refine ⟨by decide, fun dir h => ?_⟩
  simp [pathtomodule, lastIdxChar_eq_none h]

/-- Witness for C1: a concrete `@`-free input is returned unchanged. -/
theorem pathtomodule_claim_w :
    pathtomodule (r"a.b/x/fred".toList) = (r"a.b/x/fred".toList) :=
  pathtomodule_claim.2 (r"a.b/x/fred".toList) (by decide)

/-- C5 counterexample: two distinct candidate directories both contain the
search string `cmd/prog`, yet resolution does not fail — because neither
contains a `/src/` segment they are ignored, and the scan falls through to
the bare name `prog`, which a third directory matches uniquely. -/
theorem guesspkg_uniqueness_cex :
    hasSub (r"/x/cmd/prog".toList) (cmdMark ++ r"prog".toList) = true ∧
    hasSub (r"/y/cmd/prog".toList) (cmdMark ++ r"prog".toList) = true ∧
    (r"/x/cmd/prog".toList : Str) ≠ (r"/y/cmd/prog".toList : Str) ∧
    guesspkg (r"prog".toList)
        [r"/x/cmd/prog".toList, r"/y/cmd/prog".toList, r"/z/src/progzz".toList]
      = (r"progzz".toList, true) := by decide

/-- C5 (amended): a candidate directory counts as an effective match for a
search string only when it contains both the search string and a `/src/`
marker (`gmatch`); directories containing `cmd/<name>` but no `/src/`
contribute nothing.  For the effective matches of the first search string
`cmd/<name>`: two or more of them make `guesspkg` non-unique (resolution
fails, with no fall-through to the bare name); exactly one is returned as
the unique candidate; and the bare `<name>` search string is tried exactly
when there are zero of them. -/
theorem guesspkg_uniqueness (name : Str) (dirs : List Str) :
    (∀ d1 d2 rest, dirs.filter (gmatch (cmdMark ++ name)) = d1 :: d2 :: rest →
        (guesspkg name dirs).2 = false) ∧
    (∀ d, dirs.filter (gmatch (cmdMark ++ name)) = [d] →
        guesspkg name dirs = (srcRem d, true)) ∧
    (dirs.filter (gmatch (cmdMark ++ name)) = [] →
        guesspkg name dirs = guessouter [name] dirs [] false) := by
  refine ⟨fun d1 d2 rest h => ?_, fun d h => ?_, fun h => ?_⟩
  · rw [guesspkg_char, h]
  · rw [guesspkg_char, h]
  · rw [guesspkg_char, h, guessouter, guessinner_false]
    rcases h2 : dirs.filter (gmatch name) with _ | ⟨e, _ | ⟨e2, u⟩⟩ <;> simp [guessouter]

/-- Witness for C5: each of the three conjuncts applied at a concrete
candidate set. -/
theorem guesspkg_uniqueness_w :
    (guesspkg (r"prog".toList) [r"/h/src/cmd/prog".toList, r"/g/src/cmd/prog".toList]).2 = false ∧
    guesspkg (r"prog".toList) [r"/h/src/cmd/prog".toList]
      = (srcRem (r"/h/src/cmd/prog".toList), true) ∧
    guesspkg (r"prog".toList) [r"/z/data/prog".toList]
      = guessouter [r"prog".toList] [r"/z/data/prog".toList] [] false :=
  ⟨(guesspkg_uniqueness (r"prog".toList) _).1
      (r"/h/src/cmd/prog".toList) (r"/g/src/cmd/prog".toList) [] (by decide),
   (guesspkg_uniqueness (r"prog".toList) _).2.1 (r"/h/src/cmd/prog".toList) (by decide),
   (guesspkg_uniqueness (r"prog".toList) _).2.2 (by decide)⟩

theorem mem_insertDir {d x : Str} {acc : List Str} :
    d ∈ insertDir x acc ↔ d = x ∨ d ∈ acc := by
  unfold insertDir
  by_cases h : x ∈ acc
  · simp only [if_pos h]
    constructor
    · exact fun hd => Or.inr hd
    · rintro (rfl | hd)
      · exact h
      · exact hd
  · simp [if_neg h]

theorem insertDir_nodup {x : Str} {acc : List Str} (h : acc.Nodup) :
    (insertDir x acc).Nodup := by
  unfold insertDir
  by_cases hx : x ∈ acc
  · simpa [if_pos hx]
  · simpa [if_neg hx, List.nodup_cons, hx]

/-- The inner loop of the fallback scan for one file: membership. -/
theorem mem_innerFold (flt : List Str) (f : Str) (fns : List Str) (acc : List Str) (d : Str) :
    d ∈ fns.foldl
        (fun acc2 fn =>
          if fn = mainName ∧ isfiltered flt f = false then insertDir (goDir f) acc2 else acc2)
        acc ↔
      d ∈ acc ∨ (mainName ∈ fns ∧ isfiltered flt f = false ∧ d = goDir f) := by
  induction fns generalizing acc with
  | nil => simp
  | cons fn rest ih =>
    simp only [List.foldl_cons]
    by_cases hfn : fn = mainName
    · by_cases hflt : isfiltered flt f = false
      · rw [if_pos ⟨hfn, hflt⟩, ih]
        subst hfn
        simp only [mem_insertDir, List.mem_cons, hflt]
        tauto
      · rw [if_neg (fun hc => hflt hc.2), ih]
        subst hfn
        simp only [List.mem_cons]
        tauto
    · rw [if_neg (fun hc => hfn hc.1), ih]
      have hne : ¬mainName = fn := fun hc => hfn hc.symm
      have : (mainName ∈ fn :: rest) ↔ mainName ∈ rest := by
        simp [List.mem_cons, hne]
      rw [this]

theorem innerFold_nodup (flt : List Str) (f : Str) (fns : List Str) (acc : List Str)
    (h : acc.Nodup) :
    (fns.foldl
        (fun acc2 fn =>
          if fn = mainName ∧ isfiltered flt f = false then insertDir (goDir f) acc2 else acc2)
        acc).Nodup := by
  induction fns generalizing acc with
  | nil => exact h
  | cons fn rest ih =>
    simp only [List.foldl_cons]
    by_cases hc : fn = mainName ∧ isfiltered flt f = false
    · rw [if_pos hc]; exact ih _ (insertDir_nodup h)
    · rw [if_neg hc]; exact ih _ h

theorem mem_builddirsAux (flt : List Str) (files : List (Str × List Str)) (acc : List Str)
    (d : Str) :
    d ∈ files.foldl
        (fun acc p =>
          p.2.foldl
            (fun acc2 fn =>
              if fn = mainName ∧ isfiltered flt p.1 = false then insertDir (goDir p.1) acc2
              else acc2)
            acc)
        acc ↔
      d ∈ acc ∨
        ∃ p ∈ files, mainName ∈ p.2 ∧ isfiltered flt p.1 = false ∧ d = goDir p.1 := by
  induction files generalizing acc with
  | nil => simp
  | cons q rest ih =>
    simp only [List.foldl_cons]
    rw [ih, mem_innerFold]
    simp only [List.mem_cons]
    constructor
    · rintro ((hd | hq) | ⟨p, hp, h1, h2, h3⟩)
      · exact Or.inl hd
      · exact Or.inr ⟨q, Or.inl rfl, hq⟩
      · exact Or.inr ⟨p, Or.inr hp, h1, h2, h3⟩
    · rintro (hd | ⟨p, hp | hp, h1, h2, h3⟩)
      · exact Or.inl (Or.inl hd)
      · subst hp; exact Or.inl (Or.inr ⟨h1, h2, h3⟩)
      · exact Or.inr ⟨p, hp, h1, h2, h3⟩

theorem builddirs_nodup (flt : List Str) (files : List (Str × List Str)) :
    (builddirs flt files).Nodup := by
  unfold builddirs
  have : ∀ acc : List Str, acc.Nodup →
      (files.foldl
        (fun acc p =>
          p.2.foldl
            (fun acc2 fn =>
              if fn = mainName ∧ isfiltered flt p.1 = false then insertDir (goDir p.1) acc2
              else acc2)
            acc)
        acc).Nodup := by
    induction files with
    | nil => exact fun acc h => h
    | cons q rest ih =>
      intro acc h
      simp only [List.foldl_cons]
      exact ih _ (innerFold_nodup flt q.1 q.2 acc h)
  exact this [] List.nodup_nil

theorem mem_builddirs (flt : List Str) (files : List (Str × List Str)) (d : Str) :
    d ∈ builddirs flt files ↔
      ∃ p ∈ files, mainName ∈ p.2 ∧ isfiltered flt p.1 = false ∧ d = goDir p.1 := by
  unfold builddirs
  rw [mem_builddirsAux]
  simp

/-- C7: Path-filter correctness in the fallback scan: a directory is in
the candidate directory set exactly when it is the directory of a
`(file, function)` pair whose function is named `main.main` and whose file
matches no filter entry; in particular a pair whose file contains a
filtered fragment (`isfiltered`) contributes nothing. -/
theorem builddirs_claim (flt : List Str) (files : List (Str × List Str)) (d : Str) :
    d ∈ builddirs flt files ↔
      ∃ p ∈ files, mainName ∈ p.2 ∧ isfiltered flt p.1 = false ∧ d = goDir p.1 :=
  mem_builddirs flt files d

/-- C4: Primary resolution strategy: when the symbol table has no function
named `main.main`, `Import` fails immediately with `ErrGuessFail`,
whatever the rest of the table (the `PCToLine` answer and the `Files` map,
i.e. the inputs of the fallback scan) contains. -/
theorem import_nomain_claim (res : Str → Option Str) (ex : ExecM)
    (checkpaths flt : List Str) (h : ex.table.hasMain = false) :
    importEx res ex checkpaths flt = Except.error GoErr.guessFail := by
  simp [importEx, h]

/-- Witness for C4: a table without `main.main` whose `Files` map does
contain viable fallback candidates still fails immediately. -/
theorem import_nomain_claim_w :
    importEx idRes
      ⟨r"/bin/prog".toList, PlatformId.linuxAMD64,
        ⟨false, some (r"/root/src/cmd/prog/main.go".toList),
          [(r"/root/src/cmd/prog/main.go".toList, [mainName])]⟩⟩
      [r"/root".toList] filteredStatic = Except.error GoErr.guessFail :=
  import_nomain_claim idRes _ _ _ rfl

/-- C10: Windows executable-name normalisation: on `PlatformWindows386`
and `PlatformWindowsAMD64` a trailing `.exe` is removed from the base name
used as the disambiguation key; on every other platform the base name is
used exactly as-is. -/
theorem execName_claim (path b : Str) (typ : PlatformId) :
    (goBase path = b ++ exeMark →
      execName path PlatformId.windows386 = b ∧
        execName path PlatformId.windowsAMD64 = b) ∧
    (typ ≠ PlatformId.windows386 → typ ≠ PlatformId.windowsAMD64 →
      execName path typ = goBase path) := by
  constructor
  · intro hb
    have htrim : trimSuf (goBase path) exeMark = b := by
      rw [hb]
      unfold trimSuf
      have hsuf : exeMark.isSuffixOf (b ++ exeMark) = true := by
        rw [List.isSuffixOf_iff_suffix]
        exact List.suffix_append _ _
      rw [if_pos hsuf]
      have hlen : (b ++ exeMark).length - exeMark.length = b.length := by simp
      rw [hlen]
      exact List.take_left b exeMark
    constructor <;> simp [execName, htrim]
  · intro h1 h2
    simp [execName, h1, h2]

/-- Witness for C10: a Windows binary `prog.exe` is keyed as `prog`; a
Linux binary with the same name is keyed as `prog.exe`, unchanged. -/
theorem execName_claim_w :
    execName (r"/bin/prog.exe".toList) PlatformId.windows386 = (r"prog".toList) ∧
    execName (r"/bin/prog.exe".toList) PlatformId.linuxAMD64 = (r"prog.exe".toList) :=
  ⟨((execName_claim (r"/bin/prog.exe".toList) (r"prog".toList) PlatformId.linuxAMD64).1
      (by decide)).1,
   by
    have h := (execName_claim (r"/bin/prog.exe".toList) (r"prog".toList)
        PlatformId.linuxAMD64).2 (by decide) (by decide)
    rw [h]
    decide⟩

/-! ## The search-root loop of `genpkgpath` -/

/-- A (symlink-resolved) root captures a directory in the root loop of
`genpkgpath` when the directory descends from `<root>/` and from either
`<root>/src/` or the joined `pkg/mod` prefix. -/
def rootMatch (root d : Str) : Bool :=
  (pthOf root).isPrefixOf d &&
    ((spthOf root).isPrefixOf d || (mpthOf root).isPrefixOf d)

theorem isPre_iff : ∀ {a b : Str}, a.isPrefixOf b = true ↔ ∃ t, a ++ t = b := by
  intro a
  induction a with
  | nil =>
    intro b
    simp [List.isPrefixOf]
  | cons x xs ih =>
    intro b
    rcases b with _ | ⟨y, ys⟩
    · simp [List.isPrefixOf]
    · rw [List.isPrefixOf, Bool.and_eq_true, beq_iff_eq]
      constructor
      · rintro ⟨rfl, hxs⟩
        obtain ⟨t, ht⟩ := ih.mp hxs
        exact ⟨t, by rw [List.cons_append, ht]⟩
      · rintro ⟨t, ht⟩
        rw [List.cons_append] at ht
        cases ht
        exact ⟨rfl, ih.mpr ⟨t, rfl⟩⟩

theorem pth_of_spth {root d : Str} (h : (spthOf root).isPrefixOf d = true) :
    (pthOf root).isPrefixOf d = true := by
  obtain ⟨t, ht⟩ := isPre_iff.mp h
  refine isPre_iff.mpr ⟨r"src".toList ++ [sep] ++ t, ?_⟩
  rw [← ht]
  simp [spthOf, List.append_assoc]

theorem genloop_cons (res : Str → Option Str) (d path : Str) (rest : List Str) :
    genloop res d (path :: rest) =
      (if (spthOf (resolveP res path)).isPrefixOf d then
        some (d.drop (spthOf (resolveP res path)).length)
      else if (pthOf (resolveP res path)).isPrefixOf d ∧
          (mpthOf (resolveP res path)).isPrefixOf d then
        some (pathtomodule (d.drop (mpthOf (resolveP res path)).length))
      else genloop res d rest) := by
  rw [genloop]
  by_cases hp : (pthOf (resolveP res path)).isPrefixOf d = true
  · rw [if_pos hp]
    by_cases hs : (spthOf (resolveP res path)).isPrefixOf d = true
    · rw [if_pos hs, if_pos hs]
    · rw [if_neg hs, if_neg hs]
      by_cases hm : (mpthOf (resolveP res path)).isPrefixOf d = true
      · rw [if_pos hm, if_pos (And.intro hp hm)]
      · rw [if_neg hm, if_neg (fun hc : _ ∧ _ => hm hc.2)]
  · rw [if_neg hp]
    have hs : ¬(spthOf (resolveP res path)).isPrefixOf d = true :=
      fun hc => hp (pth_of_spth hc)
    rw [if_neg hs, if_neg (fun hc : _ ∧ _ => hp hc.1)]

theorem genloop_skip (res : Str → Option Str) (d : Str) (pre l : List Str)
    (hpre : ∀ p ∈ pre, rootMatch (resolveP res p) d = false) :
    genloop res d (pre ++ l) = genloop res d l := by
  induction pre with
  | nil => rfl
  | cons q pre ih =>
    have hq := hpre q (List.mem_cons_self q pre)
    have hrest : ∀ p ∈ pre, rootMatch (resolveP res p) d = false :=
      fun p hp => hpre p (List.mem_cons_of_mem q hp)
    rw [List.cons_append, genloop_cons]
    unfold rootMatch at hq
    by_cases hs : (spthOf (resolveP res q)).isPrefixOf d = true
    · rw [pth_of_spth hs, hs] at hq
      simp at hq
    · rw [if_neg (fun hc => hs hc)]
      by_cases hp : (pthOf (resolveP res q)).isPrefixOf d = true
      · rw [hp] at hq
        simp only [Bool.true_and, Bool.or_eq_false_iff] at hq
        rw [if_neg (fun hc : _ ∧ _ => by rw [hc.2] at hq; exact absurd hq.2 (by simp))]
        exact ih hrest
      · rw [if_neg (fun hc : _ ∧ _ => hp hc.1)]
        exact ih hrest

/-- C2 counterexample: the candidate directory `/a/pkg/mod/w/src/foo` is a
strict descendant of `<root>/src/` for the search root `/a/pkg/mod/w`, but
because the earlier root `/a` captures it first through its `pkg/mod`
prefix, `genpkgpath` returns `w/src/foo`, not the claimed remainder
`foo`.  (It is a descendant of no other root's `src/`: `/a/src/` is not a
prefix of it.) -/
theorem genpkgpath_src_cex :
    (spthOf (r"/a/pkg/mod/w".toList)).isPrefixOf (r"/a/pkg/mod/w/src/foo".toList) = true ∧
    (r"/a/pkg/mod/w/src/foo".toList : Str) ≠ spthOf (r"/a/pkg/mod/w".toList) ∧
    (spthOf (r"/a".toList)).isPrefixOf (r"/a/pkg/mod/w/src/foo".toList) = false ∧
    genpkgpath idRes (r"zzz".toList) (r"/a/pkg/mod/w/src/foo".toList)
        [r"/a".toList, r"/a/pkg/mod/w".toList]
      = Except.ok (r"w/src/foo".toList) ∧
    (r"w/src/foo".toList : Str) ≠ (r"foo".toList : Str) := by
  refine ⟨by decide, by decide, by decide, by rfl, by decide⟩

/-- C2 (amended): path canonicalisation, direct source build, with
first-match ordering: if no earlier root in the Search Root List captures
the (symlink-resolved) candidate directory, and the directory descends
from `<root>/src/` for the next root, then the import path is the
remainder after that prefix. -/
theorem genpkgpath_src_claim (res : Str → Option Str) (name dir root : Str)
    (pre post : List Str)
    (hpre : ∀ p ∈ pre, rootMatch (resolveP res p) (resolveP res dir) = false)
    (hsrc : (spthOf (resolveP res root)).isPrefixOf (resolveP res dir) = true) :
    genpkgpath res name dir (pre ++ root :: post)
      = Except.ok ((resolveP res dir).drop (spthOf (resolveP res root)).length) := by
  simp only [genpkgpath]
  rw [genloop_skip res (resolveP res dir) pre (root :: post) hpre, genloop_cons,
    if_pos hsrc]

/-- Witness for C2: the spec's direct-source-build scenario,
`/root/src/example.com/foo` with search roots `[/root]`. -/
theorem genpkgpath_src_claim_w :
    genpkgpath idRes (r"foo".toList) (r"/root/src/example.com/foo".toList) [r"/root".toList]
      = Except.ok (r"example.com/foo".toList) :=
  genpkgpath_src_claim idRes (r"foo".toList) (r"/root/src/example.com/foo".toList)
    (r"/root".toList) [] [] (fun p hp => absurd hp (List.not_mem_nil p)) (by decide)

/-- C3 counterexample: the candidate directory
`/a/src/w/pkg/mod/x@v1.0.0/y` is a descendant of `<root>/pkg/mod/` for the
search root `/a/src/w`, and module-path reconstruction of the remainder
`x@v1.0.0/y` is `x/y@v1.0.0`; but the earlier root `/a` captures the
directory first through its `src/` prefix, so `genpkgpath` returns
`w/pkg/mod/x@v1.0.0/y` instead. -/
theorem genpkgpath_mod_cex :
    (mpthOf (r"/a/src/w".toList)).isPrefixOf (r"/a/src/w/pkg/mod/x@v1.0.0/y".toList) = true ∧
    pathtomodule (r"x@v1.0.0/y".toList) = (r"x/y@v1.0.0".toList) ∧
    genpkgpath idRes (r"y".toList) (r"/a/src/w/pkg/mod/x@v1.0.0/y".toList)
        [r"/a".toList, r"/a/src/w".toList]
      = Except.ok (r"w/pkg/mod/x@v1.0.0/y".toList) ∧
    (r"w/pkg/mod/x@v1.0.0/y".toList : Str) ≠ (r"x/y@v1.0.0".toList : Str) := by
  refine ⟨by rfl, by rfl, by rfl, by decide⟩

/-- C3 (amended): path canonicalisation, module cache build, with
first-match ordering: if no earlier root in the Search Root List captures
the (symlink-resolved) candidate directory, and for the next root the
directory descends from `<root>/` and from the joined `pkg/mod` prefix but
not from `<root>/src/`, then the result is module-path reconstruction
applied to the remainder after the `pkg/mod` prefix. -/
theorem genpkgpath_mod_claim (res : Str → Option Str) (name dir root : Str)
    (pre post : List Str)
    (hpre : ∀ p ∈ pre, rootMatch (resolveP res p) (resolveP res dir) = false)
    (hpth : (pthOf (resolveP res root)).isPrefixOf (resolveP res dir) = true)
    (hspth : (spthOf (resolveP res root)).isPrefixOf (resolveP res dir) = false)
    (hmpth : (mpthOf (resolveP res root)).isPrefixOf (resolveP res dir) = true) :
    genpkgpath res name dir (pre ++ root :: post)
      = Except.ok (pathtomodule
          ((resolveP res dir).drop (mpthOf (resolveP res root)).length)) := by
  simp only [genpkgpath]
  rw [genloop_skip res (resolveP res dir) pre (root :: post) hpre, genloop_cons,
    if_neg (by rw [hspth]; exact Bool.false_ne_true), if_pos (And.intro hpth hmpth)]

/-- Witness for C3: the spec's module-cache-subpackage scenario,
`/root/pkg/mod/example.com/foo@v1.0.0/cmd/bar` with search roots
`[/root]`. -/
theorem genpkgpath_mod_claim_w :
    genpkgpath idRes (r"bar".toList)
        (r"/root/pkg/mod/example.com/foo@v1.0.0/cmd/bar".toList) [r"/root".toList]
      = Except.ok (r"example.com/foo/cmd/bar@v1.0.0".toList) :=
  genpkgpath_mod_claim idRes (r"bar".toList)
    (r"/root/pkg/mod/example.com/foo@v1.0.0/cmd/bar".toList) (r"/root".toList) [] []
    (fun p hp => absurd hp (List.not_mem_nil p)) (by decide) (by decide) (by decide)

/-- A resolver with one symlink: the raw candidate directory
`/other/pkg/mod/example.com/foo@v2.0.0` canonicalises to
`/elsewhere/data`; every other path resolves to itself (error case). -/
def oneLinkRes : Str → Option Str := fun p =>
  if p = r"/other/pkg/mod/example.com/foo@v2.0.0".toList then some (r"/elsewhere/data".toList)
  else none

/-- C6 counterexample: the raw (non-canonicalised) candidate directory
contains a `/pkg/mod/` marker, no search root matches and the
single-candidate fallback fails, yet `genpkgpath` errors out instead of
reconstructing from the raw remainder — the last-resort scan runs on the
symlink-canonicalised directory string, not on the raw one. -/
theorem genpkgpath_lastresort_cex :
    lastIdxSub (r"/other/pkg/mod/example.com/foo@v2.0.0".toList) modMark = some 6 ∧
    genloop oneLinkRes
        (resolveP oneLinkRes (r"/other/pkg/mod/example.com/foo@v2.0.0".toList))
        [r"/cfgroot".toList] = none ∧
    (guesspkg (r"foo".toList)
        [resolveP oneLinkRes (r"/other/pkg/mod/example.com/foo@v2.0.0".toList)]).2 = false ∧
    genpkgpath oneLinkRes (r"foo".toList)
        (r"/other/pkg/mod/example.com/foo@v2.0.0".toList) [r"/cfgroot".toList]
      = Except.error GoErr.guessFail := by
  refine ⟨by rfl, by rfl, by rfl, by rfl⟩

/-- C6 (amended): last-resort module marker scan: when the root loop finds
no match and the single-candidate fallback disambiguation is not unique,
`genpkgpath` searches the symlink-canonicalised candidate directory string
for the last `/pkg/mod/` marker and, if one exists, returns module-path
reconstruction applied to the remainder after it. -/
theorem genpkgpath_lastresort_claim (res : Str → Option Str) (name dir : Str)
    (checkpaths : List Str) (i : Nat)
    (hloop : genloop res (resolveP res dir) checkpaths = none)
    (hguess : (guesspkg name [resolveP res dir]).2 = false)
    (hmark : lastIdxSub (resolveP res dir) modMark = some i) :
    genpkgpath res name dir checkpaths
      = Except.ok (pathtomodule ((resolveP res dir).drop (i + modMark.length))) := by
  simp only [genpkgpath]
  rw [hloop]
  rcases hg : guesspkg name [resolveP res dir] with ⟨pkg, u⟩
  rw [hg] at hguess
  simp only at hguess
  subst hguess
  simp only []
  rw [hmark]

/-- Witness for C6: the spec's scenario — `/other/pkg/mod/example.com/foo@v2.0.0`
with no matching configured root (and no symlinks) yields
`example.com/foo@v2.0.0` via the last-resort scan. -/
theorem genpkgpath_lastresort_claim_w :
    genpkgpath idRes (r"foo".toList) (r"/other/pkg/mod/example.com/foo@v2.0.0".toList)
        [r"/cfgroot".toList]
      = Except.ok (r"example.com/foo@v2.0.0".toList) :=
  genpkgpath_lastresort_claim idRes (r"foo".toList)
    (r"/other/pkg/mod/example.com/foo@v2.0.0".toList) [r"/cfgroot".toList] 6
    (by rfl) (by rfl) (by rfl)

/-! ## Determinism under reordering of the unordered collections -/

theorem builddirs_perm (flt : List Str) {files files' : List (Str × List Str)}
    (h : files.Perm files') : (builddirs flt files).Perm (builddirs flt files') := by
  rw [List.perm_ext_iff_of_nodup (builddirs_nodup flt files) (builddirs_nodup flt files')]
  intro d
  rw [mem_builddirs, mem_builddirs]
  constructor <;> rintro ⟨p, hp, hrest⟩
  · exact ⟨p, h.mem_iff.mp hp, hrest⟩
  · exact ⟨p, h.mem_iff.mpr hp, hrest⟩

theorem fallbackResult_perm (name : Str) {dirs dirs' : List Str}
    (h : dirs.Perm dirs') : fallbackResult name dirs = fallbackResult name dirs' := by
  unfold fallbackResult
  rw [guesspkg_char, guesspkg_char]
  have h1 := h.filter (gmatch (cmdMark ++ name))
  have h2 := h.filter (gmatch name)
  rcases hf : dirs.filter (gmatch (cmdMark ++ name)) with _ | ⟨d, _ | ⟨d2, t⟩⟩
  · rw [hf] at h1
    rw [List.perm_nil.mp h1.symm]
    rcases hg : dirs.filter (gmatch name) with _ | ⟨e, _ | ⟨e2, u⟩⟩
    · rw [hg] at h2
      rw [List.perm_nil.mp h2.symm]
    · rw [hg] at h2
      rw [List.perm_singleton.mp h2.symm]
    · rw [hg] at h2
      have hlen := h2.length_eq
      rcases hg' : dirs'.filter (gmatch name) with _ | ⟨f, _ | ⟨f2, v⟩⟩ <;>
        rw [hg'] at hlen <;> simp_all
  · rw [hf] at h1
    rw [List.perm_singleton.mp h1.symm]
  · rw [hf] at h1
    have hlen := h1.length_eq
    rcases hf' : dirs'.filter (gmatch (cmdMark ++ name)) with _ | ⟨f, _ | ⟨f2, v⟩⟩ <;>
      rw [hf'] at hlen <;> simp_all

/-- C9: Determinism of resolution: `Import` is a pure function of the
symbol table, the environment and the resolver, and its result does not
depend on the iteration order of the unordered collections — reordering
the `(file, functions)` pairs of the `Files` map (and with it the
candidate directory set built from them) yields the identical result. -/
theorem import_perm_claim (res : Str → Option Str) (path : Str) (typ : PlatformId)
    (hasMain : Bool) (pcFile : Option Str) (files files' : List (Str × List Str))
    (checkpaths flt : List Str) (hperm : files.Perm files') :
    importEx res ⟨path, typ, ⟨hasMain, pcFile, files⟩⟩ checkpaths flt
      = importEx res ⟨path, typ, ⟨hasMain, pcFile, files'⟩⟩ checkpaths flt := by
  unfold importEx
  cases hasMain
  · rfl
  · cases pcFile
    · exact fallbackResult_perm _ (builddirs_perm flt hperm)
    · rfl

/-- Witness for C9: two `Files` tables that differ only in the order of
their two entries resolve identically. -/
theorem import_perm_claim_w :
    importEx idRes
      ⟨r"/bin/prog".toList, PlatformId.linuxAMD64,
        ⟨true, none,
          [(r"/h/src/cmd/prog/main.go".toList, [mainName]),
           (r"/h/src/cmd/prog/util.go".toList, [mainName])]⟩⟩
      [r"/h".toList] filteredStatic
      = importEx idRes
      ⟨r"/bin/prog".toList, PlatformId.linuxAMD64,
        ⟨true, none,
          [(r"/h/src/cmd/prog/util.go".toList, [mainName]),
           (r"/h/src/cmd/prog/main.go".toList, [mainName])]⟩⟩
      [r"/h".toList] filteredStatic :=
  import_perm_claim idRes (r"/bin/prog".toList) PlatformId.linuxAMD64 true none
    [(r"/h/src/cmd/prog/main.go".toList, [mainName]),
     (r"/h/src/cmd/prog/util.go".toList, [mainName])]
    [(r"/h/src/cmd/prog/util.go".toList, [mainName]),
     (r"/h/src/cmd/prog/main.go".toList, [mainName])]
    [r"/h".toList] filteredStatic
    (List.Perm.swap (r"/h/src/cmd/prog/util.go".toList, [mainName])
      (r"/h/src/cmd/prog/main.go".toList, [mainName]) [])

/-! ## `Clean` outputs do not end with a separator (unless they are `"/"`) -/

theorem mem_of_getLastQ {l : Str} {a : Char} (h : l.getLast? = some a) : a ∈ l := by
  rcases l with _ | ⟨x, xs⟩
  · simp at h
  · rw [List.getLast?_eq_getLast _ (by simp)] at h
    cases h
    exact List.getLast_mem _

theorem splitSep_ne_nil (s : Str) : splitSep s ≠ [] := by
  rcases s with _ | ⟨c, rest⟩
  · simp [splitSep]
  · rw [splitSep]
    rcases h : splitSep rest with _ | ⟨p, ps⟩
    · simp
    · by_cases hc : c = sep <;> simp [hc]

theorem splitSep_no_sep : ∀ (s : Str), ∀ p ∈ splitSep s, sep ∉ p := by
  intro s
  induction s with
  | nil =>
    intro p hp
    rw [splitSep] at hp
    simp at hp
    subst hp
    simp
  | cons c rest ih =>
    intro p hp
    rw [splitSep] at hp
    rcases h : splitSep rest with _ | ⟨q, qs⟩
    · exact absurd h (splitSep_ne_nil rest)
    · rw [h] at hp
      dsimp only at hp
      by_cases hc : c = sep
      · rw [if_pos hc] at hp
        rcases List.mem_cons.mp hp with rfl | hp2
        · simp
        · exact ih p (h ▸ hp2)
      · rw [if_neg hc] at hp
        rcases List.mem_cons.mp hp with rfl | hp2
        · intro hmem
          rcases List.mem_cons.mp hmem with hsep | hmem2
          · exact hc hsep.symm
          · exact ih q (h ▸ List.mem_cons_self q qs) hmem2
        · exact ih p (h ▸ List.mem_cons_of_mem q hp2)

theorem cleanStack_inv (rooted : Bool) :
    ∀ (pieces stack : List Str),
      (∀ p ∈ stack, p ≠ [] ∧ sep ∉ p) → (∀ p ∈ pieces, sep ∉ p) →
      ∀ p ∈ cleanStack rooted pieces stack, p ≠ [] ∧ sep ∉ p := by
  intro pieces
  induction pieces with
  | nil =>
    intro stack hs _ p hp
    exact hs p hp
  | cons piece rest ih =>
    intro stack hs hn p hp
    rw [cleanStack.eq_def] at hp
    dsimp only at hp
    have hrest : ∀ q ∈ rest, sep ∉ q := fun q hq => hn q (List.mem_cons_of_mem _ hq)
    have hpiece : sep ∉ piece := hn piece (List.mem_cons_self _ _)
    by_cases h1 : piece = [] ∨ piece = ['.']
    · rw [if_pos h1] at hp
      exact ih stack hs hrest p hp
    · rw [if_neg h1] at hp
      have hddP : (['.', '.'] : Str) ≠ [] ∧ sep ∉ (['.', '.'] : Str) := by
        refine ⟨by simp, by decide⟩
      by_cases h2 : piece = ['.', '.']
      · rw [if_pos h2] at hp
        rcases stack with _ | ⟨top, below⟩
        · dsimp only at hp
          by_cases hr : rooted = true
          · rw [if_pos hr] at hp
            exact ih [] (by simp) hrest p hp
          · rw [if_neg hr] at hp
            refine ih [piece] ?_ hrest p hp
            intro q hq
            rcases List.mem_cons.mp hq with rfl | hq2
            · exact h2 ▸ hddP
            · exact absurd hq2 (List.not_mem_nil q)
        · dsimp only at hp
          have hsTail : ∀ q ∈ below, q ≠ [] ∧ sep ∉ q :=
            fun q hq => hs q (List.mem_cons_of_mem _ hq)
          by_cases hc : rooted = true ∨ top ≠ (['.', '.'] : Str)
          · rw [if_pos hc] at hp
            exact ih below hsTail hrest p hp
          · rw [if_neg hc] at hp
            refine ih (piece :: top :: below) ?_ hrest p hp
            intro q hq
            rcases List.mem_cons.mp hq with rfl | hq2
            · exact h2 ▸ hddP
            · exact hs q hq2
      · rw [if_neg h2] at hp
        refine ih (piece :: stack) ?_ hrest p hp
        intro q hq
        rcases List.mem_cons.mp hq with rfl | hq2
        · exact ⟨fun hq0 => h1 (Or.inl hq0), hpiece⟩
        · exact hs q hq2

theorem interSep_spec : ∀ (elems : List Str), elems ≠ [] →
    (∀ p ∈ elems, p ≠ [] ∧ sep ∉ p) →
    interSep elems ≠ [] ∧ (interSep elems).getLast? ≠ some sep := by
  intro elems
  induction elems with
  | nil => intro h; cases h rfl
  | cons e rest ih =>
    intro _ h
    rcases rest with _ | ⟨f, t⟩
    · have he := h e (List.mem_cons_self _ _)
      exact ⟨he.1, fun hc => he.2 (mem_of_getLastQ hc)⟩
    · have hi := ih (by simp) (fun p hp => h p (List.mem_cons_of_mem _ hp))
      have hstep : interSep (e :: f :: t) = e ++ sep :: interSep (f :: t) := rfl
      constructor
      · rw [hstep]; simp
      · rw [hstep, List.getLast?_append_of_ne_nil e (by simp)]
        have hcons : sep :: interSep (f :: t) = [sep] ++ interSep (f :: t) := rfl
        rw [hcons, List.getLast?_append_of_ne_nil [sep] hi.1]
        exact hi.2

theorem cleanElems_spec (path : Str) : ∀ p ∈ cleanElems path, p ≠ [] ∧ sep ∉ p := by
  intro p hp
  rw [cleanElems, List.mem_reverse] at hp
  exact cleanStack_inv (rootedB path) (splitSep path) [] (by simp)
    (splitSep_no_sep path) p hp

/-- `Clean` never returns the empty string, and its result ends with the
separator only when it is the root path itself. -/
theorem goClean_spec (path : Str) :
    goClean path ≠ [] ∧ (goClean path = [sep] ∨ (goClean path).getLast? ≠ some sep) := by
  unfold goClean
  by_cases h0 : path = []
  · rw [if_pos h0]
    exact ⟨by simp, Or.inr (by decide)⟩
  · rw [if_neg h0]
    by_cases hr : rootedB path = true
    · rw [if_pos hr]
      rcases he : cleanElems path with _ | ⟨e, t⟩
      · exact ⟨by simp, Or.inl rfl⟩
      · have hi := interSep_spec (e :: t) (by simp)
          (fun p hp => cleanElems_spec path p (he ▸ hp))
        refine ⟨by simp, Or.inr ?_⟩
        have hcons : sep :: interSep (e :: t) = [sep] ++ interSep (e :: t) := rfl
        rw [hcons, List.getLast?_append_of_ne_nil [sep] hi.1]
        exact hi.2
    · rw [if_neg hr]
      by_cases he : cleanElems path = []
      · rw [if_pos he]
        exact ⟨by simp, Or.inr (by decide)⟩
      · rw [if_neg he]
        have hi := interSep_spec _ he (cleanElems_spec path)
        exact ⟨hi.1, Or.inr hi.2⟩

/-- `Dir` never ends with the separator unless it is the root path. -/
theorem goDir_spec (f : Str) : goDir f = [sep] ∨ (goDir f).getLast? ≠ some sep := by
  unfold goDir
  rcases h : lastIdxChar f sep with _ | i
  · exact (goClean_spec []).2
  · exact (goClean_spec (f.take (i + 1))).2

theorem lastIdxChar_drop {s : Str} {c : Char} {i : Nat} (h : lastIdxChar s c = some i) :
    ∃ t, s.drop i = c :: t := by
  induction s generalizing i with
  | nil => cases h
  | cons a rest ih =>
    rw [lastIdxChar] at h
    rcases hr : lastIdxChar rest c with _ | j
    · rw [hr] at h
      by_cases hac : a = c
      · rw [if_pos hac] at h
        cases h
        exact ⟨rest, by rw [List.drop_zero, hac]⟩
      · rw [if_neg hac] at h
        cases h
    · rw [hr] at h
      cases h
      exact ih hr

theorem lastIdxSub_drop {hay sub : Str} {i : Nat} (h : lastIdxSub hay sub = some i) :
    ∃ t, hay.drop i = sub ++ t := by
  induction hay generalizing i with
  | nil =>
    rw [lastIdxSub] at h
    by_cases hs : sub.isEmpty = true
    · rw [if_pos hs] at h
      cases h
      exact ⟨[], by simp [List.isEmpty_iff.mp hs]⟩
    · rw [if_neg hs] at h
      cases h
  | cons a rest ih =>
    rw [lastIdxSub] at h
    rcases hr : lastIdxSub rest sub with _ | j
    · rw [hr] at h
      by_cases hp : sub.isPrefixOf (a :: rest) = true
      · rw [if_pos hp] at h
        cases h
        obtain ⟨t, ht⟩ := isPre_iff.mp hp
        exact ⟨t, by rw [List.drop_zero]; exact ht.symm⟩
      · rw [if_neg hp] at h
        cases h
    · rw [hr] at h
      cases h
      exact ih hr

/-- Dropping a separator-terminated proper prefix cannot exhaust a string
that does not itself end with the separator (unless it is `"/"`). -/
theorem drop_of_sep_end {d pre : Str} (hpre2 : pre.getLast? = some sep)
    (hlen : 2 ≤ pre.length) (hend : d = [sep] ∨ d.getLast? ≠ some sep)
    (h : pre.isPrefixOf d = true) : d.drop pre.length ≠ [] := by
  obtain ⟨t, ht⟩ := isPre_iff.mp h
  intro h0
  have hdt : d.drop pre.length = t := by rw [← ht, List.drop_left]
  rw [hdt] at h0
  subst h0
  rw [List.append_nil] at ht
  subst ht
  rcases hend with hd | hd
  · rw [hd] at hlen
    simp at hlen
  · exact hd hpre2

/-- Dropping everything up to and including a separator-terminated marker
cannot exhaust a string that does not end with the separator. -/
theorem drop_after_marker {d mark : Str} {i : Nat} (hm1 : mark ≠ [])
    (hm2 : mark.getLast? = some sep) (hm3 : 2 ≤ mark.length)
    (hend : d = [sep] ∨ d.getLast? ≠ some sep)
    (h : lastIdxSub d mark = some i) : d.drop (i + mark.length) ≠ [] := by
  obtain ⟨t, ht⟩ := lastIdxSub_drop h
  intro h0
  have hdt : d.drop (i + mark.length) = t := by
    rw [← List.drop_drop, ht, List.drop_left]
  rw [hdt] at h0
  subst h0
  rw [List.append_nil] at ht
  rcases hend with hd | hd
  · have hlen := congrArg List.length ht
    rw [List.length_drop, hd] at hlen
    simp at hlen
    omega
  · have hd2 : d = d.take i ++ mark := by rw [← ht, List.take_append_drop]
    have : d.getLast? = some sep := by
      rw [hd2, List.getLast?_append_of_ne_nil _ hm1, hm2]
    exact hd this

theorem pathtomodule_ne_nil {r : Str} (h : r ≠ []) : pathtomodule r ≠ [] := by
  rw [pathtomodule]
  rcases ha : lastIdxChar r '@' with _ | ati
  · exact h
  · dsimp only
    obtain ⟨t, ht⟩ := lastIdxChar_drop ha
    rcases hi : idxChar (r.drop ati) sep with _ | tdir
    · exact h
    · dsimp only
      have htake : (r.drop ati).take tdir ≠ [] := by
        rw [ht] at hi ⊢
        rw [idxChar, if_neg (by decide : ¬ '@' = sep)] at hi
        rcases hj : idxChar t sep with _ | j
        · rw [hj] at hi
          cases hi
        · rw [hj] at hi
          cases hi
          simp
      intro h0
      rw [List.append_eq_nil] at h0
      exact htake h0.2

theorem spthOf_spec (root : Str) :
    (spthOf root).getLast? = some sep ∧ 2 ≤ (spthOf root).length := by
  unfold spthOf
  constructor
  · rw [List.getLast?_append_of_ne_nil _ (by simp)]
    rfl
  · simp [pthOf]

theorem mpthOf_spec (root : Str) :
    (mpthOf root).getLast? = some sep ∧ 2 ≤ (mpthOf root).length := by
  unfold mpthOf
  constructor
  · rw [List.getLast?_append_of_ne_nil _ (by simp)]
    rfl
  · have hj : goJoin [pthOf root, r"pkg".toList, r"mod".toList] ≠ [] := by
      simp only [goJoin]
      have hne : ¬(List.filter (fun e => !e.isEmpty)
          [pthOf root, r"pkg".toList, r"mod".toList]).isEmpty = true := by
        simp [pthOf, List.filter_cons, List.isEmpty_iff]
      rw [if_neg hne]
      exact (goClean_spec _).1
    rcases hg : goJoin [pthOf root, r"pkg".toList, r"mod".toList] with _ | ⟨x, xs⟩
    · exact absurd hg hj
    · simp

theorem guesspkg_singleton_true {name d pkg : Str}
    (h : guesspkg name [d] = (pkg, true)) :
    ∃ i, lastIdxSub d srcMark = some i ∧ pkg = d.drop (i + srcMark.length) := by
  rw [guesspkg_char] at h
  have hsome : ∀ s : Str, gmatch s d = true →
      ∃ i, lastIdxSub d srcMark = some i := by
    intro s hg
    rw [gmatch, Bool.and_eq_true] at hg
    exact Option.isSome_iff_exists.mp hg.2
  by_cases h1 : gmatch (cmdMark ++ name) d = true
  · rw [show List.filter (gmatch (cmdMark ++ name)) [d] = [d] from by
      simp [List.filter_cons, h1]] at h
    dsimp only at h
    obtain ⟨i, hi⟩ := hsome _ h1
    refine ⟨i, hi, ?_⟩
    have hpkg : pkg = srcRem d := (Prod.mk.injEq _ _ _ _ ▸ h).1.symm
    rw [hpkg, srcRem, hi]
  · rw [show List.filter (gmatch (cmdMark ++ name)) [d] = [] from by
      simp [List.filter_cons, h1]] at h
    dsimp only at h
    by_cases h2 : gmatch name d = true
    · rw [show List.filter (gmatch name) [d] = [d] from by
        simp [List.filter_cons, h2]] at h
      dsimp only at h
      obtain ⟨i, hi⟩ := hsome _ h2
      refine ⟨i, hi, ?_⟩
      have hpkg : pkg = srcRem d := (Prod.mk.injEq _ _ _ _ ▸ h).1.symm
      rw [hpkg, srcRem, hi]
    · rw [show List.filter (gmatch name) [d] = [] from by
        simp [List.filter_cons, h2]] at h
      dsimp only at h
      cases (Prod.mk.injEq _ _ _ _ ▸ h).2

theorem genloop_some_ne_nil (res : Str → Option Str) (d : Str) (cps : List Str) (r : Str)
    (hend : d = [sep] ∨ d.getLast? ≠ some sep)
    (h : genloop res d cps = some r) : r ≠ [] := by
  induction cps with
  | nil => cases h
  | cons path rest ih =>
    rw [genloop_cons] at h
    by_cases hs : (spthOf (resolveP res path)).isPrefixOf d = true
    · rw [if_pos hs] at h
      cases h
      exact drop_of_sep_end (spthOf_spec _).1 (spthOf_spec _).2 hend hs
    · rw [if_neg hs] at h
      by_cases hm : (pthOf (resolveP res path)).isPrefixOf d = true ∧
          (mpthOf (resolveP res path)).isPrefixOf d = true
      · rw [if_pos hm] at h
        cases h
        exact pathtomodule_ne_nil
          (drop_of_sep_end (mpthOf_spec _).1 (mpthOf_spec _).2 hend hm.2)
      · rw [if_neg hm] at h
        exact ih h

theorem genpkgpath_ok_ne_nil (res : Str → Option Str) (name dir : Str)
    (cps : List Str) (p : Str)
    (hend : resolveP res dir = [sep] ∨ (resolveP res dir).getLast? ≠ some sep)
    (h : genpkgpath res name dir cps = Except.ok p) : p ≠ [] := by
  simp only [genpkgpath] at h
  rcases hl : genloop res (resolveP res dir) cps with _ | r
  · rw [hl] at h
    dsimp only at h
    rcases hg : guesspkg name [resolveP res dir] with ⟨pkg, u⟩
    rw [hg] at h
    cases u
    · dsimp only at h
      rcases hm : lastIdxSub (resolveP res dir) modMark with _ | i
      · rw [hm] at h
        cases h
      · rw [hm] at h
        dsimp only at h
        cases h
        exact pathtomodule_ne_nil
          (drop_after_marker (by decide) (by decide) (by decide) hend hm)
    · dsimp only at h
      cases h
      obtain ⟨i, hi, hpkg⟩ := guesspkg_singleton_true hg
      rw [hpkg]
      exact drop_after_marker (by decide) (by decide) (by decide) hend hi
  · rw [hl] at h
    dsimp only at h
    cases h
    exact genloop_some_ne_nil res _ cps _ hend hl

/-- C8: Exclusive result: `Import` returns either an error or an import
path, never both (it returns a single `Except` value), and an import path
it returns is never empty — provided the symlink resolver honours its
contract of returning cleaned paths (paths not ending in a separator,
except the root `/` itself), which `filepath.EvalSymlinks` does. -/
theorem import_exclusive_claim (res : Str → Option Str) (ex : ExecM)
    (checkpaths flt : List Str) (p : Str)
    (hres : ∀ q r, res q = some r → r = [sep] ∨ r.getLast? ≠ some sep)
    (h : importEx res ex checkpaths flt = Except.ok p) : p ≠ [] := by
  simp only [importEx] at h
  by_cases hm : ex.table.hasMain = false
  · rw [if_pos hm] at h
    cases h
  · rw [if_neg hm] at h
    rcases hf : ex.table.pcFile with _ | file
    · rw [hf] at h
      dsimp only at h
      rw [fallbackResult] at h
      rcases hg : guesspkg (execName ex.path ex.typ) (builddirs flt ex.table.files)
        with ⟨pkg, u⟩
      rw [hg] at h
      dsimp only at h
      by_cases hc : u = true ∧ pkg ≠ []
      · rw [if_pos hc] at h
        cases h
        exact hc.2
      · rw [if_neg hc] at h
        cases h
    · rw [hf] at h
      dsimp only at h
      refine genpkgpath_ok_ne_nil res _ (goDir file) checkpaths p ?_ h
      rw [resolveP]
      rcases hq : res (goDir file) with _ | q
      · exact goDir_spec file
      · exact hres _ _ hq

/-- Witness for C8: a concrete resolution that succeeds returns a
non-empty import path. -/
theorem import_exclusive_claim_w : (r"example.com/foo".toList : Str) ≠ [] :=
  import_exclusive_claim idRes
    ⟨r"/bin/foo".toList, PlatformId.linuxAMD64,
      ⟨true, some (r"/root/src/example.com/foo/main.go".toList), []⟩⟩
    [r"/root".toList] [] (r"example.com/foo".toList)
    (fun q r hq => Option.noConfusion hq) (by rfl)

end Which
